import Mathlib

/-!
Verification of `stagit-highlight.py`, a two-pass in-place HTML rewriter that
injects syntax-highlighted code into stagit-generated repository pages.

The embedding models strings as `List Char` (`Str`).  A file's content is one
`Str`; Python's `fileinput`/`readlines` line splitting (each line keeps its
trailing newline; a final segment without a newline is still a line) is
`pyLines`.  The regular expressions of the source are embedded as executable
matchers over `Str`; where the regex is deterministic (character classes
disjoint from the following literals) a maximal-munch parser is used, and
where the regex needs backtracking (the `.*` and `(../)*` wildcards of the
stylesheet and raw-link patterns, in which `.` matches any character except a
newline) the matcher tries every alternative, which is exactly the regex's
match semantics.  The external pygments collaborator is an abstract function
parameter.  The guarding read's outcome is the three-way `ReadOutcome`
(success; the `IOError` the source catches; the `UnicodeDecodeError` it
does not); uncaught exceptions — an escaping decode error, the unguarded
`codelines[j]` indexing of pass 2 — are embedded as `none`.
-/

/-- `SUCCESS = 0`, from the source. -/
def SUCCESS : Nat := 0

/-- `FAILURE = 1`, from the source. -/
def FAILURE : Nat := 1

/-- Strings are modelled as lists of characters. -/
abbrev Str := List Char

/-- Literal `<a href="#l` opening the numbered-line anchor regex
`<a href="#l[0-9]+" class="line" id="l[0-9]+"> *[0-9]+</a> (.*)`. -/
def ANCH1 : Str := ("<a href=\"#l").data

/-- Literal `" class="line" id="l` of the anchor regex. -/
def ANCH2 : Str := ("\" class=\"line\" id=\"l").data

/-- Literal `">` of the anchor regex, before the ` *[0-9]+` run. -/
def ANCH3 : Str := ("\">").data

/-- Literal `</a> ` closing the anchor prefix (trailing space included). -/
def ANCH4 : Str := ("</a> ").data

/-- Literal head of the stylesheet regex
`<link rel="stylesheet" type="text/css" href="(../)*style.css"/>$`. -/
def LINKPRE : Str := ("<link rel=\"stylesheet\" type=\"text/css\" href=\"").data

/-- The exact content-container opener compared with `==` in the source:
`'<div id="content">\n'`. -/
def contentOpen : Str := ("<div id=\"content\">\n").data

/-- The exact closing line compared with `==` in the source: `"</div>\n"`. -/
def closeDiv : Str := ("</div>\n").data

/-- The extra `</div>` the source prints (without a newline) after an
in-content closing line. -/
def divClose : Str := ("</div>").data

/-- Literal `<p> ` opening the raw-link regex
`<p> .* <a href="(../)*raw/.*">raw</a></p><hr/><pre id=blob">$`. -/
def RAWPRE : Str := ("<p> ").data

/-- Literal ` <a href="` of the raw-link regex. -/
def RAWMID : Str := (" <a href=\"").data

/-- Literal `raw/` of the raw-link regex. -/
def RAWSEG : Str := ("raw/").data

/-- Literal tail `">raw</a></p><hr/><pre id=blob">` of the raw-link regex. -/
def RAWTAIL : Str := ("\">raw</a></p><hr/><pre id=blob\">").data

/-- Replacement source `style.css` of `line.replace("style.css", "syntax.css")`. -/
def SCSS : Str := ("style.css").data

/-- Replacement target `syntax.css`. -/
def YCSS : Str := ("syntax.css").data

/-- Replacement source `<hr/>` of the raw-line rewrite. -/
def HRS : Str := ("<hr/>").data

/-- Replacement target `<hr/><div class="highlight">` of the raw-line rewrite. -/
def HRH : Str := ("<hr/><div class=\"highlight\">").data

/-- The pygments wrapper `<div class="highlight"><pre>` stripped with
`removeprefix` from the highlighter output. -/
def WRAP : Str := ("<div class=\"highlight\"><pre>").data

/-- The `.html` suffix stripped by `removesuffix(".html")`. -/
def htmlSuf : Str := (".html").data

/-- If `pat` is a prefix of `s`, the remainder after it, else `none`. -/
def stripPre? (pat s : Str) : Option Str :=
  if pat.isPrefixOf s then some (s.drop pat.length) else none

/-- Python `str.removeprefix`: drop `pat` if it is a prefix, else unchanged. -/
def stripPre (pat s : Str) : Str := (stripPre? pat s).getD s

/-- Consume a nonempty maximal run of `[0-9]` (regex `[0-9]+`); in the anchor
regex every `[0-9]+` is followed by a non-digit literal, so maximal munch is
the regex's unique match. -/
def digits1 (s : Str) : Option Str :=
  let d := s.takeWhile Char.isDigit
  if d.isEmpty then none else some (s.drop d.length)

/-- Matcher for the anchor regex
`<a href="#l[0-9]+" class="line" id="l[0-9]+"> *[0-9]+</a> ` applied with
`re.match` (anchored at the start of the line): returns the remainder of the
line after the matched prefix, or `none` when the head of the line does not
match.  The ` *` run is followed by `[0-9]+`, disjoint classes, so maximal
munch again coincides with regex matching. -/
def anchorRest? (l : Str) : Option Str := do
  let r1 ← stripPre? ANCH1 l
  let r2 ← digits1 r1
  let r3 ← stripPre? ANCH2 r2
  let r4 ← digits1 r3
  let r5 ← stripPre? ANCH3 r4
  let r6 := r5.dropWhile (fun c => c == ' ')
  let r7 ← digits1 r6
  stripPre? ANCH4 r7

/-- Group 1 of the pass-2 regex
`(<a href="#l[0-9]+" class="line" id="l[0-9]+"> *[0-9]+</a> )`:
the matched anchor prefix itself. -/
def anchorPre? (l : Str) : Option Str :=
  (anchorRest? l).map (fun r => l.take (l.length - r.length))

/-- Group 1 of the pass-1 regex, the trailing `(.*)`: the maximal run of
non-newline characters after the anchor prefix. -/
def anchorCode? (l : Str) : Option Str :=
  (anchorRest? l).map (fun r => r.takeWhile (fun c => c != '\n'))

/-- Does the line match the numbered-line anchor pattern (`re.match` is a
prefix match, and the trailing `(.*)` always matches)? -/
def isAnchor (l : Str) : Bool := (anchorRest? l).isSome

/-- Tail of the stylesheet regex after the `(../)*` blocks: `style.css"/>$`
where the `.` of `style.css` is the regex any-character (not `\n`) and `$`
matches at the end of the line or just before a trailing newline. -/
def styleTail : Str → Bool
  | 's' :: 't' :: 'y' :: 'l' :: 'e' :: c :: 'c' :: 's' :: 's' :: '"' :: '/' :: '>' :: rest =>
      (c != '\n') && (rest.isEmpty || rest == ['\n'])
  | _ => false

/-- `(../)*style.css"/>$` where each `.` is any non-newline character: either
the tail matches here, or one more three-character block ending in `/` is
consumed.  Trying both alternatives is the regex's backtracking search. -/
def linkBlocks : Str → Bool
  | a :: b :: '/' :: rest =>
      styleTail (a :: b :: '/' :: rest) ||
        ((a != '\n') && (b != '\n') && linkBlocks rest)
  | s => styleTail s

/-- The stylesheet-line test of the source:
`re.match(r'<link rel="stylesheet" type="text/css" href="(../)*style.css"/>$', line)`. -/
def stylesheetLine (l : Str) : Bool :=
  match stripPre? LINKPRE l with
  | some r => linkBlocks r
  | none => false

/-- Tail `.*">raw</a></p><hr/><pre id=blob">$` of the raw-link regex: the
line must end with the literal tail (an optional final newline for `$`), and
the gap consumed by `.*` must be newline-free. -/
def rawTailOk (s : Str) : Bool :=
  let core := if s.getLast? == some '\n' then s.dropLast else s
  RAWTAIL.isSuffixOf core &&
    (core.take (core.length - RAWTAIL.length)).all (fun c => c != '\n')

/-- Attempt `raw/.*">raw</a></p><hr/><pre id=blob">$` at this position. -/
def rawHere (s : Str) : Bool :=
  match stripPre? RAWSEG s with
  | some r => rawTailOk r
  | none => false

/-- `(../)*raw/.*">raw…$`: try the `raw/` literal here, or consume one
`../`-block (two non-newline characters then `/`) and continue. -/
def rawMid : Str → Bool
  | a :: b :: '/' :: rest =>
      rawHere (a :: b :: '/' :: rest) ||
        ((a != '\n') && (b != '\n') && rawMid rest)
  | s => rawHere s

/-- Attempt ` <a href="(../)*raw/…$` at this position. -/
def rawAt (s : Str) : Bool :=
  match stripPre? RAWMID s with
  | some r => rawMid r
  | none => false

/-- `.* <a href="…`: try the literal at every position reachable without
crossing a newline. -/
def rawScan : Str → Bool
  | [] => rawAt []
  | c :: t => rawAt (c :: t) || ((c != '\n') && rawScan t)

/-- The raw-link-line test of the source:
`re.match(r'<p> .* <a href="(../)*raw/.*">raw</a></p><hr/><pre id=blob">$', line)`. -/
def rawLine (l : Str) : Bool :=
  match stripPre? RAWPRE l with
  | some r => rawScan r
  | none => false

/-- Python `str.replace` (all occurrences, left to right, non-overlapping),
with explicit fuel so that the recursion is structural; the fuel is set to
the length of the string, which suffices because every step consumes at
least one character when `pat` is nonempty (every pattern used by the source
is nonempty). -/
def replaceAllGo (pat rep : Str) : Nat → Str → Str
  | _, [] => []
  | 0, s => s
  | fuel + 1, c :: t =>
      if pat ≠ [] ∧ pat.isPrefixOf (c :: t) then
        rep ++ replaceAllGo pat rep fuel ((c :: t).drop pat.length)
      else
        c :: replaceAllGo pat rep fuel t

/-- Python `line.replace(pat, rep)`. -/
def replaceAll (pat rep s : Str) : Str := replaceAllGo pat rep s.length s

/-- Python `html.unescape`, restricted to the five entities produced by
`html.escape` (the escaping used by the stagit generator whose pages this
tool rewrites): `&amp; &lt; &gt; &quot; &#x27;` plus the common `&#39;`.
Like `html.unescape` it replaces the leftmost entity first and does not
rescan the replacement. -/
def htmlUnescape : Str → Str
  | '&' :: 'a' :: 'm' :: 'p' :: ';' :: rest => '&' :: htmlUnescape rest
  | '&' :: 'l' :: 't' :: ';' :: rest => '<' :: htmlUnescape rest
  | '&' :: 'g' :: 't' :: ';' :: rest => '>' :: htmlUnescape rest
  | '&' :: 'q' :: 'u' :: 'o' :: 't' :: ';' :: rest => '"' :: htmlUnescape rest
  | '&' :: '#' :: 'x' :: '2' :: '7' :: ';' :: rest => '\'' :: htmlUnescape rest
  | '&' :: '#' :: '3' :: '9' :: ';' :: rest => '\'' :: htmlUnescape rest
  | c :: rest => c :: htmlUnescape rest
  | [] => []

/-- Python file iteration (`fileinput`, `readlines`): split after every
newline, each line keeping its trailing `'\n'`; a final segment without a
newline is still a line; the empty file has no lines. -/
def pyLines : Str → List Str
  | [] => []
  | c :: rest =>
      if c = '\n' then ['\n'] :: pyLines rest
      else
        match pyLines rest with
        | [] => [[c]]
        | l :: ls => (c :: l) :: ls

/-- Python `str.split("\n")`: segments between newlines, terminators dropped;
`"".split("\n") == [""]`, so the result is never empty. -/
def splitNL : Str → List Str
  | [] => [[]]
  | c :: rest =>
      if c = '\n' then [] :: splitNL rest
      else
        match splitNL rest with
        | [] => [[c]]
        | l :: ls => (c :: l) :: ls

example : pyLines ("a\nb\n").data = [['a', '\n'], ['b', '\n']] := by decide
example : pyLines ("a\nb").data = [['a', '\n'], ['b']] := by decide
example : splitNL ("a\n").data = [['a'], []] := by decide

/-- One line of pass 1 (`highlight_file`, first `fileinput` loop).  Returns
the new `in_content` flag, the piece appended to the code buffer (the first
`if`, independent of the print chain), and the text printed for this line
(the `if`/`elif` chain, in source order).  The extra `</div>` and nothing
else is printed without a trailing newline, exactly as
`print(line + "</div>", end="")` does. -/
def pass1Line (inC : Bool) (l : Str) : Bool × Str × Str :=
  let piece : Str :=
    match anchorCode? l with
    | some r => r ++ ['\n']
    | none => []
  if stylesheetLine l then (inC, piece, l ++ replaceAll SCSS YCSS l)
  else if l = contentOpen then (true, piece, l)
  else if !inC then (inC, piece, l)
  else if l = closeDiv then (inC, piece, l ++ divClose)
  else if rawLine l then (inC, piece, replaceAll HRS HRH l)
  else (inC, piece, l)

/-- Pass 1 over a list of lines: threads `in_content`, accumulates the code
buffer, and collects the printed chunk of every line.  Returns the final
flag, the code buffer, and the chunks (whose concatenation is the file
content after pass 1). -/
def pass1Go : Bool → List Str → Bool × Str × List Str
  | inC, [] => (inC, [], [])
  | inC, l :: ls =>
      let s := pass1Line inC l
      let r := pass1Go s.1 ls
      (r.1, s.2.1 ++ r.2.1, s.2.2 :: r.2.2)

/-- Pass 1 on a whole file content: the code buffer and the rewritten
content (`in_content` starts false, `code` starts empty). -/
def pass1 (content : Str) : Str × Str :=
  let r := pass1Go false (pyLines content)
  (r.2.1, r.2.2.flatten)

/-- List indexing `xs[j]`, `none` when out of range (Python raises
`IndexError` there). -/
def nth? : List Str → Nat → Option Str
  | [], _ => none
  | x :: _, 0 => some x
  | _ :: xs, j + 1 => nth? xs j

/-- Pass 2 (second `fileinput` loop) over the lines of the pass-1 output:
a line matching the anchor-prefix pattern is replaced by
`print(m.group(1) + codelines[j])` (so the printed text is the prefix, the
`j`-th highlighted line, and the newline added by `print`), advancing `j`;
any other line is printed unchanged.  The source indexes `codelines[j]`
without any bounds check; an out-of-range access raises `IndexError`,
embedded as `none`. -/
def pass2Go (cl : List Str) : Nat → List Str → Option (List Str)
  | _, [] => some []
  | j, l :: ls =>
      match anchorPre? l with
      | some p =>
          match nth? cl j with
          | none => none
          | some h => (pass2Go cl (j + 1) ls).map (fun rest => (p ++ h ++ ['\n']) :: rest)
      | none => (pass2Go cl j ls).map (fun rest => l :: rest)

/-- The whole rewrite of one recognized file, parameterized by the external
highlighter `hl` (pygments with the resolved lexer and `HtmlFormatter`):
pass 1, then
`codelines = pygments.highlight(html.unescape(code), …).removeprefix('<div class="highlight"><pre>').split("\n")`,
then pass 2.  `none` is the unhandled `IndexError` of pass 2. -/
def rewriteContent (hl : Str → Str) (content : Str) : Option Str :=
  (pass2Go (splitNL (stripPre WRAP (hl (htmlUnescape (pass1 content).1)))) 0
      (pyLines (pass1 content).2)).map List.flatten

/-- Python `str.removesuffix`: drop `suf` when it is a suffix (tested here
as "the last `suf.length` characters equal `suf`"), else unchanged. -/
def dropSuffixStr (s suf : Str) : Str :=
  if suf.length ≤ s.length ∧ s.drop (s.length - suf.length) = suf then
    s.take (s.length - suf.length)
  else s

/-- Outcome of the guarding `open(...)`/`f.readlines()` attempt of
`highlight_file`: success; an `IOError` (`OSError`: permissions, transient
I/O failure), which the source's `except IOError` catches; or a
`UnicodeDecodeError` on non-UTF-8 bytes, which is a `ValueError` and is
*not* caught by `except IOError`. -/
inductive ReadOutcome : Type
  | ok
  | ioError
  | decodeError

/-- `highlight_file(pathname)`, parameterized by the lexer resolution
`getLexer` (pygments `get_lexer_for_filename`, `none` = `ClassNotFound`) and
the highlighter `hl`.  `content` is the file's content; `rd` is the outcome
of the guarding read.  A caught `IOError` is reported to stderr and returns
`FAILURE` without touching the file; a `UnicodeDecodeError` escapes the
`except IOError` handler.  The result pairs the returned status with the
file content afterwards; `none` is an uncaught exception (the escaping
decode error, or the unguarded indexing of pass 2). -/
def highlightFile {L : Type} (getLexer : Str → Option L) (hl : L → Str → Str)
    (path content : Str) (rd : ReadOutcome) : Option (Nat × Str) :=
  match getLexer (dropSuffixStr path htmlSuf) with
  | none => some (SUCCESS, content)
  | some lx =>
      match rd with
      | ReadOutcome.ok => (rewriteContent (hl lx) content).map (fun c2 => (SUCCESS, c2))
      | ReadOutcome.ioError => some (FAILURE, content)
      | ReadOutcome.decodeError => none

/-- A directory tree: `os.listdir` enumeration order is the list order. -/
inductive FSTree : Type
  | file (name : Str)
  | dir (name : Str) (entries : List FSTree)

/-- Does the entry list contain a directory named `n`?  This is
`os.path.isdir(os.path.join(pathname, i))` for a name `i` among the entries
of `pathname`: on a real filesystem the joined path names a directory
exactly when a sibling directory entry has that name.  (`".html"` contains
no `/`, so stripping it from the joined path strips it from the last
component.) -/
def hasDirNamed (es : List FSTree) (n : Str) : Bool :=
  es.any (fun e =>
    match e with
    | FSTree.dir m _ => m == n
    | FSTree.file _ => false)

/-- `os.path.join(pathname, i)` for a relative name `i`. -/
def pathJoin (p n : Str) : Str := p ++ '/' :: n

mutual

/-- `traverse_repository(pathname)` on a directory whose entries are `es`,
with the per-file rewriter abstracted as `rwF` (the status `highlight_file`
returns for a path).  Returns the final `retval` and the list of paths the
rewriter was invoked on, in order. -/
def traverseDir (rwF : Str → Nat) (p : Str) (es : List FSTree) : Nat × List Str :=
  traverseEntries rwF p es es SUCCESS
termination_by (sizeOf es, 1)

/-- The `for i in os.listdir(pathname)` loop: `sibs` is the full entry list
(used by the sibling-directory test), the fourth argument the remaining
entries, the fifth the current `retval`.  A directory entry recurses and
overwrites `retval`; a file entry whose name with `.html` removed names a
sibling directory is skipped; any other file entry invokes the rewriter and
overwrites `retval`. -/
def traverseEntries (rwF : Str → Nat) (p : Str) (sibs : List FSTree) :
    List FSTree → Nat → Nat × List Str
  | [], r => (r, [])
  | FSTree.dir n sub :: rest, r =>
      let r1 := traverseDir rwF (pathJoin p n) sub
      let r2 := traverseEntries rwF p sibs rest r1.1
      (r2.1, r1.2 ++ r2.2)
  | FSTree.file n :: rest, r =>
      if hasDirNamed sibs (dropSuffixStr n htmlSuf) then
        traverseEntries rwF p sibs rest r
      else
        let r2 := traverseEntries rwF p sibs rest (rwF (pathJoin p n))
        (r2.1, pathJoin p n :: r2.2)
termination_by rest r => (sizeOf rest, 0)

end

example : anchorRest? ("<a href=\"#l1\" class=\"line\" id=\"l1\"> 1</a> x\n").data = some ['x', '\n'] := by decide
example : stylesheetLine ("<link rel=\"stylesheet\" type=\"text/css\" href=\"../../style.css\"/>\n").data = true := by decide
example : stylesheetLine ("<link rel=\"stylesheet\" type=\"text/css\" href=\"style.css\"/>").data = true := by decide
example : rawLine ("<p> f.c <a href=\"raw/f.c\">raw</a></p><hr/><pre id=blob\">\n").data = true := by decide
example : rawLine ("<p> f.c <a href=\"../raw/f.c\">raw</a></p><hr/><pre id=blob\">\n").data = true := by decide
example : replaceAll HRS HRH ("a<hr/>b").data = ("a<hr/><div class=\"highlight\">b").data := by decide
example : htmlUnescape ("&amp;lt;").data = ("&lt;").data := by decide
example : dropSuffixStr ("f.c.html").data htmlSuf = ("f.c").data := by decide

/-- The rewriter invocations contributed by one entry of a directory whose
full entry list is `sibs`: a subdirectory contributes its recursive
traversal's invocations, a file contributes its own path unless its name
with `.html` removed names a sibling directory. -/
def entryPaths (rwF : Str → Nat) (p : Str) (sibs : List FSTree) : FSTree → List Str
  | FSTree.dir n sub => (traverseDir rwF (pathJoin p n) sub).2
  | FSTree.file n =>
      if hasDirNamed sibs (dropSuffixStr n htmlSuf) then [] else [pathJoin p n]

/-- Concatenated `entryPaths` over a list of entries. -/
def pathsOf (rwF : Str → Nat) (p : Str) (sibs : List FSTree) : List FSTree → List Str
  | [] => []
  | e :: rest => entryPaths rwF p sibs e ++ pathsOf rwF p sibs rest

/-- The list of rewriter invocations of the traversal loop is `pathsOf`,
independently of the incoming `retval`: per-file statuses never change which
files are visited. -/
theorem traverseEntries_paths (rwF : Str → Nat) (p : Str) (sibs : List FSTree) :
    ∀ (rest : List FSTree) (r : Nat),
      (traverseEntries rwF p sibs rest r).2 = pathsOf rwF p sibs rest := by
  intro rest
  induction rest with
  | nil => intro r; simp [traverseEntries, pathsOf]
  | cons e rest ih =>
      intro r
      cases e with
      | dir n sub => simp [traverseEntries, pathsOf, entryPaths, ih]
      | file n =>
          by_cases h : hasDirNamed sibs (dropSuffixStr n htmlSuf) = true
          · simp [traverseEntries, pathsOf, entryPaths, h, ih]
          · simp only [Bool.not_eq_true] at h
            simp [traverseEntries, pathsOf, entryPaths, h, ih]

/-- The number of lines of a line list that match the numbered-line anchor
pattern. -/
def countA (ls : List Str) : Nat := ls.countP (fun l => isAnchor l)

/-- `removesuffix` really strips an appended suffix. -/
theorem dropSuffixStr_append (x suf : Str) : dropSuffixStr (x ++ suf) suf = x := by
  have hlen : (x ++ suf).length - suf.length = x.length := by
    simp [List.length_append]
  unfold dropSuffixStr
  rw [if_pos]
  · rw [hlen, List.take_left]
  · refine ⟨by simp [List.length_append], ?_⟩
    rw [hlen, List.drop_left]

/-- A directory entry makes `hasDirNamed` true for its name. -/
theorem hasDirNamed_of_mem {es : List FSTree} {X : Str} {xs : List FSTree}
    (h : FSTree.dir X xs ∈ es) : hasDirNamed es X = true := by
  unfold hasDirNamed
  rw [List.any_eq_true]
  exact ⟨FSTree.dir X xs, h, by simp⟩

/-- Membership transfers from one entry's contribution to the whole list's. -/
theorem mem_pathsOf_of_mem {rwF : Str → Nat} {p : Str} {sibs : List FSTree}
    {e : FSTree} {rest : List FSTree} {q : Str}
    (he : e ∈ rest) (hq : q ∈ entryPaths rwF p sibs e) :
    q ∈ pathsOf rwF p sibs rest := by
  induction rest with
  | nil => cases he
  | cons a rest ih =>
      rcases List.mem_cons.1 he with h | h
      · subst h
        exact List.mem_append.2 (Or.inl hq)
      · exact List.mem_append.2 (Or.inr (ih h))

/-- C8: a file whose lookup name (path with a trailing `.html` removed) gets
no lexer is returned `SUCCESS` immediately, with its content unchanged. -/
theorem c8_no_lexer_noop {L : Type} (getLexer : Str → Option L)
    (hl : L → Str → Str) (path content : Str) (rd : ReadOutcome)
    (h : getLexer (dropSuffixStr path htmlSuf) = none) :
    highlightFile getLexer hl path content rd = some (SUCCESS, content) := by
  unfold highlightFile
  rw [h]

theorem c8_no_lexer_noop_witness :
    ((fun _ => none) : Str → Option Unit) (dropSuffixStr ("a.txt.html").data htmlSuf) = none ∧
      highlightFile (fun _ => (none : Option Unit)) (fun _ s => s)
        (("a.txt.html").data) (("hello\n").data) ReadOutcome.ok =
        some (SUCCESS, ("hello\n").data) :=
  ⟨rfl, c8_no_lexer_noop (fun _ => none) (fun _ s => s) _ _ ReadOutcome.ok rfl⟩

mutual

/-- `traverse_repository` as `traverseDir`, but with the per-file rewriter
allowed to raise an uncaught exception (`none`): the loop has no handler,
so the exception propagates through every recursion level (and `main`) and
aborts the whole traversal.  `some` pairs the final `retval` with the
rewriter invocations that completed. -/
def traverseDirE (rwF : Str → Option Nat) (p : Str) (es : List FSTree) :
    Option (Nat × List Str) :=
  traverseEntriesE rwF p es es SUCCESS
termination_by (sizeOf es, 1)

/-- The traversal loop with exception propagation; otherwise the same
structure as the status-only `traverseEntries`. -/
def traverseEntriesE (rwF : Str → Option Nat) (p : Str) (sibs : List FSTree) :
    List FSTree → Nat → Option (Nat × List Str)
  | [], r => some (r, [])
  | FSTree.dir n sub :: rest, r =>
      match traverseDirE rwF (pathJoin p n) sub with
      | none => none
      | some r1 =>
          match traverseEntriesE rwF p sibs rest r1.1 with
          | none => none
          | some r2 => some (r2.1, r1.2 ++ r2.2)
  | FSTree.file n :: rest, r =>
      if hasDirNamed sibs (dropSuffixStr n htmlSuf) then
        traverseEntriesE rwF p sibs rest r
      else
        match rwF (pathJoin p n) with
        | none => none
        | some s =>
            match traverseEntriesE rwF p sibs rest s with
            | none => none
            | some r2 => some (r2.1, pathJoin p n :: r2.2)
termination_by rest r => (sizeOf rest, 0)

end

/-- A rewriter that raises an uncaught exception on `repo/a.c.html` and
succeeds elsewhere. -/
def rwCrash : Str → Option Nat :=
  fun q =>
    if q = pathJoin (("repo").data) (("a.c.html").data) then none else some SUCCESS

/-- C4 (code bug): the guarding read's `except IOError` does not catch
`UnicodeDecodeError` (a `ValueError`).  With a lexer resolved, a caught
`IOError` does return `FAILURE` with the file untouched (first conjunct,
the claim's behavior), but a decode failure propagates as an uncaught
exception (second conjunct, `none`), and an uncaught exception aborts the
entire traversal — `traverseDirE` on `repo/` with `a.c.html` raising
returns `none` and the later `b.c.html` is never processed (third
conjunct) — instead of reporting `FAILURE` for that file and continuing,
as the claim, the spec and the source's own docstring ("If this opening of
the file throws an error than the function returns FAILURE and the program
moves on to the next file") require. -/
theorem c4_decode_error_uncaught :
    highlightFile (fun _ => some ()) (fun _ s => s) (("f.c.html").data)
        (("x\n").data) ReadOutcome.ioError = some (FAILURE, ("x\n").data) ∧
      highlightFile (fun _ => some ()) (fun _ s => s) (("f.c.html").data)
        (("x\n").data) ReadOutcome.decodeError = none ∧
      traverseDirE rwCrash (("repo").data)
          [FSTree.file (("a.c.html").data), FSTree.file (("b.c.html").data)] =
        none := by
  refine ⟨rfl, rfl, ?_⟩
  simp [traverseDirE, traverseEntriesE, hasDirNamed, rwCrash]

/-- C9: in a directory containing a subdirectory `X` and a sibling file
`X.html`: the file `X.html` contributes no rewriter invocation (its stripped
name names the sibling directory); the subdirectory's contribution is its
full recursive traversal, whose invocations all occur in the directory's
invocation list (the Walker recurses into `X`); and every file entry whose
stripped name names no sibling directory is still invoked. -/
theorem c9_walker_skips_index (rwF : Str → Nat) (p : Str) (es : List FSTree)
    (X : Str) (xs : List FSTree) (hmem : FSTree.dir X xs ∈ es) :
    entryPaths rwF p es (FSTree.file (X ++ htmlSuf)) = [] ∧
      entryPaths rwF p es (FSTree.dir X xs) = (traverseDir rwF (pathJoin p X) xs).2 ∧
      (∀ q, q ∈ (traverseDir rwF (pathJoin p X) xs).2 → q ∈ (traverseDir rwF p es).2) ∧
      (∀ n, FSTree.file n ∈ es → hasDirNamed es (dropSuffixStr n htmlSuf) = false →
        pathJoin p n ∈ (traverseDir rwF p es).2) := by
  have hpaths : (traverseDir rwF p es).2 = pathsOf rwF p es es := by
    unfold traverseDir
    exact traverseEntries_paths rwF p es es SUCCESS
  refine ⟨?_, rfl, ?_, ?_⟩
  · simp only [entryPaths]
    rw [dropSuffixStr_append, hasDirNamed_of_mem hmem]
    rfl
  · intro q hq
    rw [hpaths]
    exact mem_pathsOf_of_mem hmem hq
  · intro n hn hskip
    rw [hpaths]
    refine mem_pathsOf_of_mem hn ?_
    simp only [entryPaths]
    rw [hskip]
    simp

theorem c9_walker_skips_index_witness :
    FSTree.dir (("sub").data) [FSTree.file (("g.c.html").data)] ∈
        ([FSTree.dir (("sub").data) [FSTree.file (("g.c.html").data)],
          FSTree.file (("sub.html").data),
          FSTree.file (("f.c.html").data)] : List FSTree) ∧
      entryPaths (fun _ => SUCCESS) (("r").data)
        [FSTree.dir (("sub").data) [FSTree.file (("g.c.html").data)],
          FSTree.file (("sub.html").data),
          FSTree.file (("f.c.html").data)]
        (FSTree.file ((("sub").data : Str) ++ htmlSuf)) = [] :=
  ⟨by simp,
    (c9_walker_skips_index (fun _ => SUCCESS) (("r").data) _ (("sub").data)
      [FSTree.file (("g.c.html").data)] (by simp)).1⟩

/-- A rewriter that fails on `repo/a.c.html` and succeeds elsewhere. -/
def rwMask : Str → Nat :=
  fun q => if q = pathJoin (("repo").data) (("a.c.html").data) then FAILURE else SUCCESS

/-- C1 (code bug): `traverse_repository` only keeps the last sub-result.  On
a directory with files `a.c.html` (whose rewrite fails) followed by
`b.c.html` (whose rewrite succeeds), the failure is overwritten and the
traversal returns `SUCCESS`, although both files were processed and the
first one failed — contradicting both the spec's aggregate-status contract
and the function's own docstring. -/
theorem c1_last_result_wins :
    rwMask (pathJoin (("repo").data) (("a.c.html").data)) = FAILURE ∧
      traverseDir rwMask (("repo").data)
          [FSTree.file (("a.c.html").data), FSTree.file (("b.c.html").data)] =
        (SUCCESS,
          [pathJoin (("repo").data) (("a.c.html").data),
            pathJoin (("repo").data) (("b.c.html").data)]) := by
  constructor
  · simp [rwMask]
  · simp [traverseDir, traverseEntries, hasDirNamed, rwMask, pathsOf, entryPaths]
    decide

/-- Fixture stylesheet line `<link … href="style.css"/>`. -/
def fixL1 : Str := ("<link rel=\"stylesheet\" type=\"text/css\" href=\"style.css\"/>\n").data

/-- Fixture raw-link header line. -/
def fixL3 : Str := ("<p> f.c <a href=\"raw/f.c\">raw</a></p><hr/><pre id=blob\">\n").data

/-- Fixture anchor line `l1` carrying escaped code `int x = 1;`. -/
def fixL4 : Str := ("<a href=\"#l1\" class=\"line\" id=\"l1\"> 1</a> int x = 1;\n").data

/-- Fixture anchor line `l2` carrying escaped code `int x = 2;`. -/
def fixL5 : Str := ("<a href=\"#l2\" class=\"line\" id=\"l2\"> 2</a> int x = 2;\n").data

/-- The minimal fixture page of the spec: one stylesheet line, the
content-open marker, one raw-link header line, two numbered-line anchors,
and the matching content close. -/
def fixture : Str := fixL1 ++ contentOpen ++ fixL3 ++ fixL4 ++ fixL5 ++ closeDiv

/-- C7: pass 2's `codelines[j]` access is unguarded.  With a highlighter
output of fewer lines than the file has anchor lines (here: empty output,
i.e. one split line, against two anchors), the embedded `Option` index is
out of range and the rewrite reaches its error branch (`none`, the uncaught
`IndexError`). -/
theorem c7_index_out_of_range :
    rewriteContent (fun _ => []) fixture = none := by decide

/-- The code buffer pass 1 collects from the fixture (escaped text of the
two anchors; `int x = 1;`/`int x = 2;` contain no HTML entities, so the
unescaped highlighter input is the same text). -/
def fixCode : Str := ("int x = 1;\nint x = 2;\n").data

/-- The injected second stylesheet link of the fixture (`syntax.css`). -/
def fixSyn : Str := ("<link rel=\"stylesheet\" type=\"text/css\" href=\"syntax.css\"/>\n").data

/-- The fixture raw-link line after `<hr/>` is replaced by
`<hr/><div class="highlight">`. -/
def fixL3H : Str :=
  ("<p> f.c <a href=\"raw/f.c\">raw</a></p><hr/><div class=\"highlight\"><pre id=blob\">\n").data

/-- The anchor prefix of fixture line `l1` (group 1 of the pass-2 regex). -/
def fixP4 : Str := ("<a href=\"#l1\" class=\"line\" id=\"l1\"> 1</a> ").data

/-- The anchor prefix of fixture line `l2`. -/
def fixP5 : Str := ("<a href=\"#l2\" class=\"line\" id=\"l2\"> 2</a> ").data

/-- C10: processing the minimal fixture page with any highlighter `hl` whose
(wrapper-stripped, newline-split) output has at least two lines yields: the
`style.css` link followed by the injected `syntax.css` link, the unchanged
content opener, the raw-link line with the opened `<div class="highlight">`
wrapper, the two anchor lines with their remainders replaced by the
highlighter's first and second output lines for `int x = 1;\nint x = 2;\n`
(in that order), and the content close followed by the duplicated
`</div>`. -/
theorem c10_fixture (hl : Str → Str) (a b : Str) (r : List Str)
    (hcl : splitNL (stripPre WRAP (hl fixCode)) = a :: b :: r) :
    rewriteContent hl fixture =
      some (List.flatten
        [fixL1, fixSyn, contentOpen, fixL3H,
          fixP4 ++ a ++ ['\n'], fixP5 ++ b ++ ['\n'],
          closeDiv, divClose]) := by
  have h1 : htmlUnescape (pass1 fixture).1 = fixCode := by decide
  have h2 : pyLines (pass1 fixture).2 =
      [fixL1, fixSyn, contentOpen, fixL3H, fixL4, fixL5, closeDiv, divClose] := by decide
  unfold rewriteContent
  rw [h1, hcl, h2]
  rfl

theorem c10_fixture_witness :
    splitNL (stripPre WRAP ((fun _ => ('A' :: '\n' :: 'B' :: [])) fixCode)) =
        ['A'] :: ['B'] :: [] ∧
      rewriteContent (fun _ => ('A' :: '\n' :: 'B' :: [])) fixture =
        some (List.flatten
          [fixL1, fixSyn, contentOpen, fixL3H,
            fixP4 ++ ['A'] ++ ['\n'], fixP5 ++ ['B'] ++ ['\n'],
            closeDiv, divClose]) :=
  ⟨by decide, c10_fixture (fun _ => ('A' :: '\n' :: 'B' :: [])) ['A'] ['B'] [] (by decide)⟩

/-- `nth?` agrees with list indexing. -/
theorem nth?_eq (cl : List Str) : ∀ (j : Nat), nth? cl j = cl[j]? := by
  induction cl with
  | nil => intro j; simp [nth?]
  | cons x xs ih =>
      intro j
      cases j with
      | zero => simp [nth?]
      | succ j => simp [nth?, ih]

/-- A line has an anchor prefix exactly when it matches the anchor pattern. -/
theorem isAnchor_eq_isSome_anchorPre? (l : Str) :
    isAnchor l = (anchorPre? l).isSome := by
  unfold isAnchor anchorPre?
  simp

/-- Transcription of the spec's description of pass 2: every line matching
the anchor-prefix pattern becomes the prefix followed by the next unconsumed
line of the Highlighted Line Sequence (cursor `j` advancing by exactly one
per matching line); every other line is emitted unchanged. -/
def pass2Spec (cl : List Str) : Nat → List Str → List Str
  | _, [] => []
  | j, l :: ls =>
      match anchorPre? l with
      | some p => (p ++ (nth? cl j).getD [] ++ ['\n']) :: pass2Spec cl (j + 1) ls
      | none => l :: pass2Spec cl j ls

/-- Pass 2 with enough highlighted lines computes exactly the spec's
transcription, for any starting cursor. -/
theorem pass2Go_eq_spec (cl : List Str) :
    ∀ (ls : List Str) (j : Nat), j + countA ls ≤ cl.length →
      pass2Go cl j ls = some (pass2Spec cl j ls) := by
  intro ls
  induction ls with
  | nil => intro j h; simp [pass2Go, pass2Spec]
  | cons l ls ih =>
      intro j h
      have hcount : countA (l :: ls) = countA ls + if isAnchor l then 1 else 0 :=
        List.countP_cons _ _ _
      cases hopt : anchorPre? l with
      | none =>
          have hna : isAnchor l = false := by
            rw [isAnchor_eq_isSome_anchorPre?, hopt]
            rfl
          have h' : j + countA ls ≤ cl.length := by
            rw [hcount, hna] at h
            simpa using h
          simp [pass2Go, pass2Spec, hopt, ih j h']
      | some p =>
          have ha : isAnchor l = true := by
            rw [isAnchor_eq_isSome_anchorPre?, hopt]
            rfl
          have hj : j < cl.length := by
            rw [hcount, ha] at h
            simp at h
            omega
          have h' : (j + 1) + countA ls ≤ cl.length := by
            rw [hcount, ha] at h
            simp at h
            omega
          have hv : nth? cl j = some cl[j] := by
            rw [nth?_eq]
            exact List.getElem?_eq_getElem hj
          simp [pass2Go, pass2Spec, hopt, hv, ih (j + 1) h']

/-- C5: on the pass-1-rewritten lines, pass 2 replaces each anchor-matching
line's remainder with the next unconsumed highlighted line (in order, cursor
advancing by one per matching line) and emits every non-matching line
unchanged — i.e. it computes `pass2Spec`, provided the sequence holds at
least as many lines as there are matches. -/
theorem c5_pass2_replaces_in_order (cl ls : List Str)
    (h : countA ls ≤ cl.length) :
    pass2Go cl 0 ls = some (pass2Spec cl 0 ls) :=
  pass2Go_eq_spec cl ls 0 (by simpa using h)

theorem c5_pass2_replaces_in_order_witness :
    countA [fixL4, closeDiv, fixL5] ≤ ([("x").data, ("y").data] : List Str).length ∧
      pass2Go [("x").data, ("y").data] 0 [fixL4, closeDiv, fixL5] =
        some (pass2Spec [("x").data, ("y").data] 0 [fixL4, closeDiv, fixL5]) :=
  ⟨by decide, c5_pass2_replaces_in_order [("x").data, ("y").data] [fixL4, closeDiv, fixL5] (by decide)⟩

/-- A line matching the anchor pattern starts with `<a`. -/
theorem anchor_starts {l r : Str} (h : anchorRest? l = some r) :
    ∃ t, l = '<' :: 'a' :: t := by
  have hpre : ANCH1.isPrefixOf l = true := by
    by_contra hc
    simp only [Bool.not_eq_true] at hc
    unfold anchorRest? stripPre? at h
    rw [hc] at h
    simp at h
  rcases List.isPrefixOf_iff_prefix.1 hpre with ⟨t, ht⟩
  refine ⟨(" href=\"#l").data ++ t, ?_⟩
  rw [← ht]
  rfl

/-- An anchor line is not a stylesheet line (its second character is `a`,
not `l`). -/
theorem stylesheetLine_false_of_anchor {l r : Str} (h : anchorRest? l = some r) :
    stylesheetLine l = false := by
  rcases anchor_starts h with ⟨t, rfl⟩
  have hpre : LINKPRE.isPrefixOf ('<' :: 'a' :: t) = false := rfl
  unfold stylesheetLine stripPre?
  rw [hpre]
  rfl

/-- An anchor line is not a raw-link line (second character `a`, not `p`). -/
theorem rawLine_false_of_anchor {l r : Str} (h : anchorRest? l = some r) :
    rawLine l = false := by
  rcases anchor_starts h with ⟨t, rfl⟩
  have hpre : RAWPRE.isPrefixOf ('<' :: 'a' :: t) = false := rfl
  unfold rawLine stripPre?
  rw [hpre]
  rfl

/-- An anchor line is not the content opener (second character `a`, not `d`). -/
theorem ne_contentOpen_of_anchor {l r : Str} (h : anchorRest? l = some r) :
    l ≠ contentOpen := by
  rcases anchor_starts h with ⟨t, rfl⟩
  intro heq
  rw [show contentOpen = '<' :: 'd' :: (("iv id=\"content\">\n").data) from rfl] at heq
  simp at heq

/-- An anchor line is not the exact `</div>` line (second character `a`,
not `/`). -/
theorem ne_closeDiv_of_anchor {l r : Str} (h : anchorRest? l = some r) :
    l ≠ closeDiv := by
  rcases anchor_starts h with ⟨t, rfl⟩
  intro heq
  rw [show closeDiv = '<' :: '/' :: (("div>\n").data) from rfl] at heq
  simp at heq

/-- The line used by the C2 counterexample: an anchor whose trailing content
`&amp;x` contains an HTML entity. -/
def c2line : Str := ("<a href=\"#l1\" class=\"line\" id=\"l1\"> 1</a> &amp;x\n").data

/-- C2 counterexample: pass 1 appends the raw `<REST>` (`&amp;x`) plus a
newline to the code buffer — not `html.unescape(<REST>)` plus a newline as
the claim states (those differ: unescaping gives `&x`).  The single
unescape happens later, on the whole buffer, when it is passed to the
highlighter. -/
theorem c2_counterexample :
    anchorCode? c2line = some (("&amp;x").data) ∧
      (pass1 c2line).1 = ("&amp;x\n").data ∧
      (pass1 c2line).1 ≠ htmlUnescape (("&amp;x").data) ++ ['\n'] := by decide

/-- C2 amended: for every line matching the anchor pattern with trailing
content `r`, pass 1 appends `r ++ "\n"` verbatim to the code buffer (no
per-line unescape), leaves the `in_content` flag unchanged, and writes the
line back unmodified; the buffer is HTML-unescaped exactly once, when
`rewriteContent` hands it to the highlighter. -/
theorem c2_amended (inC : Bool) (l r : Str) (h : anchorCode? l = some r) :
    pass1Line inC l = (inC, r ++ ['\n'], l) := by
  have hrest : ∃ r0, anchorRest? l = some r0 := by
    unfold anchorCode? at h
    rcases Option.map_eq_some'.1 h with ⟨r0, hr0, _⟩
    exact ⟨r0, hr0⟩
  rcases hrest with ⟨r0, hr0⟩
  have h1 := stylesheetLine_false_of_anchor hr0
  have h2 := rawLine_false_of_anchor hr0
  have h3 := ne_contentOpen_of_anchor hr0
  have h4 := ne_closeDiv_of_anchor hr0
  unfold pass1Line
  cases inC <;> simp [h, h1, h2, h3, h4]

theorem c2_amended_witness :
    anchorCode? fixL4 = some (("int x = 1;").data) ∧
      pass1Line true fixL4 = (true, (("int x = 1;").data) ++ ['\n'], fixL4) :=
  ⟨by decide, c2_amended true fixL4 (("int x = 1;").data) (by decide)⟩

/-- Once `in_content` is set it is never reset: no branch of the loop body
assigns it `False`. -/
theorem pass1Line_fst_true (l : Str) : (pass1Line true l).1 = true := by
  simp only [pass1Line]
  split_ifs <;> rfl

/-- Before the content opener is seen, `in_content` stays false. -/
theorem pass1Line_fst_false (l : Str) (h : l ≠ contentOpen) :
    (pass1Line false l).1 = false := by
  simp only [pass1Line]
  split_ifs <;> simp_all

/-- The content opener sets `in_content`, whatever its previous value, and
is emitted unchanged. -/
theorem pass1Line_contentOpen (inC : Bool) :
    pass1Line inC contentOpen = (true, [], contentOpen) := by
  cases inC <;> decide

/-- Pass 1 over an appended line list splits into the two parts, the second
run from the state the first one reaches. -/
theorem pass1Go_append (a : List Str) :
    ∀ (b : List Str) (inC : Bool),
      pass1Go inC (a ++ b) =
        ((pass1Go (pass1Go inC a).1 b).1,
          (pass1Go inC a).2.1 ++ (pass1Go (pass1Go inC a).1 b).2.1,
          (pass1Go inC a).2.2 ++ (pass1Go (pass1Go inC a).1 b).2.2) := by
  induction a with
  | nil => intro b inC; simp [pass1Go]
  | cons l a ih => intro b inC; simp [pass1Go, ih, List.append_assoc]

/-- Pass 1 emits exactly one chunk per input line. -/
theorem pass1Go_chunks_length (ls : List Str) :
    ∀ (inC : Bool), ((pass1Go inC ls).2.2).length = ls.length := by
  induction ls with
  | nil => intro inC; simp [pass1Go]
  | cons l ls ih => intro inC; simp [pass1Go, ih]

/-- While `in_content` holds, every exact `</div>` line is emitted with the
extra `</div>` appended. -/
theorem pass1Go_close_doubled (ls : List Str) :
    ∀ (i : Nat), ls[i]? = some closeDiv →
      ((pass1Go true ls).2.2)[i]? = some (closeDiv ++ divClose) := by
  induction ls with
  | nil => intro i h; simp at h
  | cons l ls ih =>
      intro i h
      cases i with
      | zero =>
          simp only [List.getElem?_cons_zero, Option.some.injEq] at h
          subst h
          have hline : pass1Line true closeDiv = (true, [], closeDiv ++ divClose) := by decide
          simp [pass1Go, hline]
      | succ i =>
          simp only [List.getElem?_cons_succ] at h
          have hfst := pass1Line_fst_true l
          simp only [pass1Go, List.getElem?_cons_succ]
          rw [hfst]
          exact ih i h

/-- C3 counterexample: after the matching close of the content container the
flag is not reset, so a second exact `</div>` line is again emitted doubled
rather than unchanged. -/
theorem c3_counterexample :
    ((pass1Go false [contentOpen, closeDiv, closeDiv]).2.2)[2]? =
        some (closeDiv ++ divClose) ∧
      closeDiv ++ divClose ≠ closeDiv := by decide

/-- Before the content opener, every exact `</div>` line is emitted
unchanged (the `not in_content` branch). -/
theorem pass1Go_close_unchanged (ls : List Str) :
    ∀ (i : Nat), (∀ l ∈ ls, l ≠ contentOpen) → ls[i]? = some closeDiv →
      ((pass1Go false ls).2.2)[i]? = some closeDiv := by
  induction ls with
  | nil => intro i _ h; simp at h
  | cons l ls ih =>
      intro i hpre h
      cases i with
      | zero =>
          simp only [List.getElem?_cons_zero, Option.some.injEq] at h
          subst h
          have hline : pass1Line false closeDiv = (false, [], closeDiv) := by decide
          simp [pass1Go, hline]
      | succ i =>
          simp only [List.getElem?_cons_succ] at h
          have hne : l ≠ contentOpen := hpre l (by simp)
          simp only [pass1Go, List.getElem?_cons_succ]
          rw [pass1Line_fst_false l hne]
          exact ih i (fun x hx => hpre x (by simp [hx])) h

/-- C3 amended: the inside-content treatment starts at the line that is
exactly the content-container opener and persists for the remainder of the
file (the flag is never reset): before the opener an exact `</div>` line is
emitted unchanged, while after the opener every exact `</div>` line — the
matching close and any later one — is emitted followed by the extra
`</div>`. -/
theorem c3_amended (L1 L2 : List Str) (i : Nat)
    (hpre : ∀ l ∈ L1, l ≠ contentOpen) :
    (∀ j : Nat, L1[j]? = some closeDiv →
      ((pass1Go false (L1 ++ contentOpen :: L2)).2.2)[j]? = some closeDiv) ∧
      (L2[i]? = some closeDiv →
        ((pass1Go false (L1 ++ contentOpen :: L2)).2.2)[L1.length + 1 + i]? =
          some (closeDiv ++ divClose)) := by
  have hsplit := pass1Go_append L1 (contentOpen :: L2) false
  have hlen : ((pass1Go false L1).2.2).length = L1.length :=
    pass1Go_chunks_length L1 false
  constructor
  · intro j hj
    have hjlt : j < L1.length := (List.getElem?_eq_some.1 hj).1
    rw [hsplit]
    have hcast : ((pass1Go false L1).2.2 ++
        (pass1Go (pass1Go false L1).1 (contentOpen :: L2)).2.2)[j]? =
        ((pass1Go false L1).2.2)[j]? :=
      List.getElem?_append_left (by rw [hlen]; exact hjlt)
    rw [hcast]
    exact pass1Go_close_unchanged L1 j hpre hj
  · intro hi
    rw [hsplit]
    rw [List.getElem?_append_right (by rw [hlen]; omega)]
    rw [hlen]
    have hidx : L1.length + 1 + i - L1.length = i + 1 := by omega
    rw [hidx]
    rcases hs : (pass1Go false L1).1 with _ | _
    all_goals {
      simp only [pass1Go, pass1Line_contentOpen, List.getElem?_cons_succ]
      exact pass1Go_close_doubled L2 i hi
    }

theorem c3_amended_witness :
    ((pass1Go false ([closeDiv] ++ contentOpen :: [closeDiv])).2.2)[0]? =
        some closeDiv ∧
      ((pass1Go false ([closeDiv] ++ contentOpen :: [closeDiv])).2.2)[2]? =
        some (closeDiv ++ divClose) :=
  ⟨(c3_amended [closeDiv] [closeDiv] 0 (by decide)).1 0 (by decide),
    (c3_amended [closeDiv] [closeDiv] 0 (by decide)).2 (by decide)⟩

/-- `s` contains no newline. -/
def noNL (s : Str) : Bool := s.all (fun c => c != '\n')

/-- `l` is a complete line: newline-free body followed by `'\n'`. -/
def endsNL (l : Str) : Prop := ∃ m, l = m ++ ['\n'] ∧ noNL m = true

/-- Every line is complete, except that the last may instead be a nonempty
newline-free segment (a final line without terminator). -/
def goodLines : List Str → Prop
  | [] => True
  | l :: ls => (endsNL l ∨ (ls = [] ∧ noNL l = true ∧ l ≠ [])) ∧ goodLines ls

/-- The lines produced by `pyLines` are good. -/
theorem pyLines_good (cs : Str) : goodLines (pyLines cs) := by
  induction cs with
  | nil => simp [pyLines, goodLines]
  | cons c rest ih =>
      by_cases hc : c = '\n'
      · subst hc
        simp only [pyLines, if_pos rfl, goodLines]
        exact ⟨Or.inl ⟨[], rfl, rfl⟩, ih⟩
      · simp only [pyLines, if_neg hc]
        cases hp : pyLines rest with
        | nil =>
            simp only [goodLines]
            exact ⟨Or.inr ⟨by simp, by simp [noNL, hc], by simp⟩, by simp [goodLines]⟩
        | cons l ls =>
            rw [hp] at ih
            simp only [goodLines] at ih ⊢
            rcases ih with ⟨h1, h2⟩
            refine ⟨?_, h2⟩
            rcases h1 with ⟨m, hm, hmn⟩ | ⟨hls, hln, _⟩
            · exact Or.inl ⟨c :: m, by rw [hm]; rfl, by simp [noNL, hc]; simpa [noNL] using hmn⟩
            · exact Or.inr ⟨hls, by simp [noNL, hc]; simpa [noNL] using hln, by simp⟩

/-- Splitting a complete line off the front of a character stream. -/
theorem pyLines_append_line {m : Str} (hm : noNL m = true) (rest : Str) :
    pyLines (m ++ '\n' :: rest) = (m ++ ['\n']) :: pyLines rest := by
  induction m with
  | nil => simp [pyLines]
  | cons c m ih =>
      have hcm : c ≠ '\n' ∧ noNL m = true := by
        simpa [noNL] using hm
      have ihm := ih hcm.2
      simp only [List.cons_append, pyLines, if_neg hcm.1, List.append_eq]
      rw [ihm]

/-- A nonempty newline-free stream is one single line. -/
theorem pyLines_noNL {s : Str} (hs : noNL s = true) (hne : s ≠ []) :
    pyLines s = [s] := by
  induction s with
  | nil => exact absurd rfl hne
  | cons c t ih =>
      simp only [noNL, List.all_cons, Bool.and_eq_true, bne_iff_ne] at hs
      by_cases ht : t = []
      · subst ht
        simp [pyLines, hs.1]
      · have iht : pyLines t = [t] := by
          apply ih _ ht
          simp [noNL]
          intro x hx
          have := hs.2
          simp [List.all_eq_true] at this
          exact this x hx
        simp [pyLines, hs.1, iht]

/-- A line whose second character is not `a` never matches the anchor
pattern (whose literal head is `<a`). -/
theorem isAnchor_false_of_second {c : Char} (t : Str) (h : c ≠ 'a') :
    isAnchor ('<' :: c :: t) = false := by
  have hb : ('a' == c) = false := beq_eq_false_iff_ne.mpr (Ne.symm h)
  have hA : ANCH1 = '<' :: 'a' :: (" href=\"#l").data := rfl
  unfold isAnchor anchorRest? stripPre?
  rw [hA]
  simp [List.isPrefixOf, hb]

/-- A stylesheet line starts with `<l`. -/
theorem stylesheet_starts {l : Str} (h : stylesheetLine l = true) :
    ∃ t, l = '<' :: 'l' :: t := by
  have hpre : LINKPRE.isPrefixOf l = true := by
    by_contra hc
    simp only [Bool.not_eq_true] at hc
    unfold stylesheetLine stripPre? at h
    rw [hc] at h
    simp at h
  rcases List.isPrefixOf_iff_prefix.1 hpre with ⟨t, ht⟩
  refine ⟨(("ink rel=\"stylesheet\" type=\"text/css\" href=\"").data) ++ t, ?_⟩
  rw [← ht]
  rfl

/-- A raw-link line starts with `<p`. -/
theorem raw_starts {l : Str} (h : rawLine l = true) :
    ∃ t, l = '<' :: 'p' :: t := by
  have hpre : RAWPRE.isPrefixOf l = true := by
    by_contra hc
    simp only [Bool.not_eq_true] at hc
    unfold rawLine stripPre? at h
    rw [hc] at h
    simp at h
  rcases List.isPrefixOf_iff_prefix.1 hpre with ⟨t, ht⟩
  refine ⟨(("> ").data) ++ t, ?_⟩
  rw [← ht]
  rfl

/-- Dropping preserves newline-freedom. -/
theorem noNL_drop {s : Str} (hs : noNL s = true) (n : Nat) :
    noNL (s.drop n) = true := by
  simp only [noNL, List.all_eq_true] at hs ⊢
  exact fun x hx => hs x (List.drop_subset n s hx)

/-- `replaceAllGo` with a newline-free replacement preserves
newline-freedom. -/
theorem replaceAllGo_noNL (pat rep : Str) (hrep : noNL rep = true) :
    ∀ (f : Nat) (s : Str), noNL s = true → noNL (replaceAllGo pat rep f s) = true := by
  intro f
  induction f with
  | zero =>
      intro s hs
      cases s with
      | nil => simp [replaceAllGo, noNL]
      | cons c t => simpa [replaceAllGo] using hs
  | succ f ih =>
      intro s hs
      cases s with
      | nil => simp [replaceAllGo, noNL]
      | cons c t =>
          simp only [replaceAllGo]
          split_ifs with hcond
          · have h1 : noNL ((c :: t).drop pat.length) = true := noNL_drop hs _
            have h2 := ih _ h1
            simp only [noNL, List.all_append, Bool.and_eq_true]
            exact ⟨hrep, h2⟩
          · have hct : c ≠ '\n' ∧ noNL t = true := by simpa [noNL] using hs
            have h2 := ih t hct.2
            simp [noNL, hct.1]
            simpa [noNL] using h2

/-- A newline-free pattern that is a prefix of `m ++ "\n"` fits inside `m`. -/
theorem pat_le_of_isPrefixOf {pat m : Str} (hpat : noNL pat = true)
    (h : pat.isPrefixOf (m ++ ['\n']) = true) : pat.length ≤ m.length := by
  rcases List.isPrefixOf_iff_prefix.1 h with ⟨t', ht'⟩
  cases t' with
  | nil =>
      exfalso
      rw [List.append_nil] at ht'
      have hmem : '\n' ∈ pat := by
        rw [ht']
        exact List.mem_append_right m (by simp)
      simp only [noNL, List.all_eq_true] at hpat
      have := hpat '\n' hmem
      simp at this
  | cons x xs =>
      have := congrArg List.length ht'
      simp [List.length_append] at this
      omega

/-- `replaceAllGo` (with newline-free pattern and replacement, and enough
fuel) maps a complete line to a complete line. -/
theorem replaceAllGo_endsNL (pat rep : Str) (hpat : noNL pat = true)
    (hrep : noNL rep = true) :
    ∀ (f : Nat) (m : Str), noNL m = true → m.length + 1 ≤ f →
      ∃ m', replaceAllGo pat rep f (m ++ ['\n']) = m' ++ ['\n'] ∧ noNL m' = true := by
  intro f
  induction f with
  | zero => intro m _ hlen; omega
  | succ f ih =>
      intro m hm hlen
      cases m with
      | nil =>
          simp only [List.nil_append, replaceAllGo]
          split_ifs with hcond
          · exfalso
            have hle := pat_le_of_isPrefixOf (m := []) hpat hcond.2
            simp only [List.length_nil, Nat.le_zero, List.length_eq_zero] at hle
            exact hcond.1 hle
          · refine ⟨[], ?_, rfl⟩
            simp [replaceAllGo]
      | cons c m0 =>
          have hcm : c ≠ '\n' ∧ noNL m0 = true := by simpa [noNL] using hm
          simp only [List.cons_append, replaceAllGo, List.append_eq]
          split_ifs with hcond
          · rcases hcond with ⟨hne, hpre⟩
            rw [← List.cons_append] at hpre
            have hle : pat.length ≤ (c :: m0).length := pat_le_of_isPrefixOf hpat hpre
            have hdrop : ((c :: m0) ++ ['\n']).drop pat.length =
                ((c :: m0).drop pat.length) ++ ['\n'] :=
              List.drop_append_of_le_length hle
            have hnodrop : noNL ((c :: m0).drop pat.length) = true := noNL_drop hm _
            have hplen : 1 ≤ pat.length := by
              cases pat with
              | nil => exact absurd rfl hne
              | cons a b => simp
            have hflen : ((c :: m0).drop pat.length).length + 1 ≤ f := by
              simp only [List.length_drop, List.length_cons]
              simp only [List.length_cons] at hlen
              omega
            rcases ih _ hnodrop hflen with ⟨m1, heq, hm1⟩
            refine ⟨rep ++ m1, ?_, ?_⟩
            · rw [show (c :: (m0 ++ ['\n'])) = (c :: m0) ++ ['\n'] from rfl, hdrop, heq,
                List.append_assoc]
            · simp only [noNL, List.all_append, Bool.and_eq_true]
              exact ⟨hrep, hm1⟩
          · have hflen : m0.length + 1 ≤ f := by
              simp only [List.length_cons] at hlen
              omega
            rcases ih m0 hcm.2 hflen with ⟨m1, heq, hm1⟩
            refine ⟨c :: m1, ?_, ?_⟩
            · rw [heq]
              rfl
            · simp [noNL, hcm.1]
              simpa [noNL] using hm1

/-- When the pattern matches at neither of the first two positions,
`replaceAllGo` keeps the first two characters. -/
theorem replaceAllGo_keeps_head2 (pat rep : Str) (f : Nat) (c1 c2 : Char) (t : Str)
    (h1 : pat.isPrefixOf (c1 :: c2 :: t) = false)
    (h2 : pat.isPrefixOf (c2 :: t) = false) :
    ∃ t', replaceAllGo pat rep f (c1 :: c2 :: t) = c1 :: c2 :: t' := by
  cases f with
  | zero => exact ⟨t, rfl⟩
  | succ f =>
      simp only [replaceAllGo]
      rw [if_neg (by rintro ⟨_, hpre⟩; rw [h1] at hpre; cases hpre)]
      cases f with
      | zero => exact ⟨t, rfl⟩
      | succ f =>
          simp only [replaceAllGo]
          rw [if_neg (by rintro ⟨_, hpre⟩; rw [h2] at hpre; cases hpre)]
          exact ⟨replaceAllGo pat rep f t, rfl⟩

/-- Does pass 1 take, for this line, the branch that prints the extra
`</div>` without a trailing newline (`print(line + "</div>", end="")`)?
Mirrors the `if`/`elif` chain of the source. -/
def isDoubling (inC : Bool) (l : Str) : Bool :=
  if stylesheetLine l then false
  else if l = contentOpen then false
  else if !inC then false
  else if l = closeDiv then true
  else false

/-- No line matching the anchor pattern directly follows a doubled `</div>`
line: the extra `</div>` is printed without a newline, so it merges with the
next printed line, which then no longer starts at column zero.  This is the
condition under which the pass-1/pass-2 anchor counts agree. -/
def noMergeHazard : Bool → List Str → Bool
  | _, [] => true
  | inC, l :: ls =>
      (if isDoubling inC l then
        (match ls with
         | [] => true
         | l2 :: _ => !isAnchor l2)
       else true) && noMergeHazard (pass1Line inC l).1 ls

/-- Counting one complete line split off the front. -/
theorem countA_line_append {m : Str} (hm : noNL m = true) (X : Str) :
    countA (pyLines ((m ++ ['\n']) ++ X)) =
      countA (pyLines X) + (if isAnchor (m ++ ['\n']) then 1 else 0) := by
  have hx : (m ++ ['\n']) ++ X = m ++ '\n' :: X := by simp
  rw [hx, pyLines_append_line hm]
  exact List.countP_cons _ _ _

/-- Counting a single unterminated line. -/
theorem countA_single {s : Str} (hs : noNL s = true) (hne : s ≠ []) :
    countA (pyLines s) = if isAnchor s then 1 else 0 := by
  rw [pyLines_noNL hs hne]
  simp [countA, List.countP_cons]

/-- Anything prefixed by the dangling `</div>` is not an anchor line. -/
theorem isAnchor_divClose_append (x : Str) : isAnchor (divClose ++ x) = false := by
  have hx : divClose ++ x = '<' :: '/' :: ((("div>").data) ++ x) := rfl
  rw [hx]
  exact isAnchor_false_of_second _ (by decide)

/-- The C6 counterexample content: the content opener, its close, then an
anchor line. -/
def c6fix : Str :=
  contentOpen ++ closeDiv ++ ("<a href=\"#l1\" class=\"line\" id=\"l1\"> 1</a> x\n").data

/-- C6 counterexample: the input has one anchor line, but pass 1's doubled
`</div>` is printed without a newline and merges with the anchor line, so
the pass-1 output has zero anchor-matching lines — pass 2 would consume
nothing while pass 1 collected one line. -/
theorem c6_counterexample :
    countA (pyLines c6fix) = 1 ∧ countA (pyLines (pass1 c6fix).2) = 0 := by decide

/-- Counting a complete-line chunk prefixed by a pending dangling piece
(empty or the dangling `</div>`). -/
theorem countA_chunk_line {pend m : Str} (hpend : pend = [] ∨ pend = divClose)
    (hm : noNL m = true) (X : Str) :
    countA (pyLines (pend ++ ((m ++ ['\n']) ++ X))) =
      countA (pyLines X) + (if isAnchor (pend ++ (m ++ ['\n'])) then 1 else 0) := by
  rcases hpend with rfl | rfl
  · simpa using countA_line_append hm X
  · have hE : divClose ++ ((m ++ ['\n']) ++ X) = ((divClose ++ m) ++ ['\n']) ++ X := by
      simp [List.append_assoc]
    have hmn : noNL (divClose ++ m) = true := by
      simp only [noNL, List.all_append, Bool.and_eq_true]
      exact ⟨by decide, hm⟩
    rw [hE, countA_line_append hmn]
    have : (divClose ++ m) ++ ['\n'] = divClose ++ (m ++ ['\n']) := by
      simp [List.append_assoc]
    rw [this]

/-- Counting a final unterminated chunk prefixed by a pending piece. -/
theorem countA_pend_single {pend s : Str} (hpend : pend = [] ∨ pend = divClose)
    (hs : noNL s = true) (hne : s ≠ []) :
    countA (pyLines (pend ++ s)) = if isAnchor (pend ++ s) then 1 else 0 := by
  have hp : noNL pend = true := by rcases hpend with rfl | rfl <;> decide
  have hps : noNL (pend ++ s) = true := by
    simp only [noNL, List.all_append, Bool.and_eq_true]
    exact ⟨hp, hs⟩
  have hpne : pend ++ s ≠ [] := by
    rcases hpend with rfl | rfl <;> simp [hne]
  exact countA_single hps hpne

/-- Anchor status of a pend-prefixed non-anchor line. -/
theorem isAnchor_pend {pend : Str} (hpend : pend = [] ∨ pend = divClose)
    (x : Str) (hx : isAnchor x = false) : isAnchor (pend ++ x) = false := by
  rcases hpend with rfl | rfl
  · simpa using hx
  · exact isAnchor_divClose_append x

/-- The anchor count of the pass-1 output (with a pending unterminated piece
carried in from a previous doubled `</div>`) equals the input's anchor
count, provided no anchor line directly follows a doubled `</div>` line. -/
theorem c6_go (ls : List Str) : ∀ (inC : Bool) (pend : Str),
    (pend = [] ∨ (pend = divClose ∧ ∀ l0 ∈ ls.take 1, isAnchor l0 = false)) →
    goodLines ls →
    noMergeHazard inC ls = true →
    countA (pyLines (pend ++ ((pass1Go inC ls).2.2).flatten)) = countA ls := by
  induction ls with
  | nil =>
      intro inC pend hp _ _
      rcases hp with rfl | ⟨rfl, _⟩
      · simp [pass1Go, pyLines, countA]
      · simp only [pass1Go, List.flatten_nil, List.append_nil]
        rw [countA_single (by decide) (by decide)]
        decide
  | cons l ls ih =>
      intro inC pend hp hgood hz
      have hgood1 : endsNL l ∨ (ls = [] ∧ noNL l = true ∧ l ≠ []) := hgood.1
      have hgood2 : goodLines ls := hgood.2
      have hz2 : noMergeHazard (pass1Line inC l).1 ls = true := by
        have h := hz
        simp only [noMergeHazard, Bool.and_eq_true] at h
        exact h.2
      have hRHS : countA (l :: ls) = countA ls + (if isAnchor l then 1 else 0) :=
        List.countP_cons _ _ _
      have hpend : pend = [] ∨ pend = divClose := by
        rcases hp with rfl | ⟨rfl, _⟩
        · exact Or.inl rfl
        · exact Or.inr rfl
      have htail : countA (pyLines
          (List.flatten (pass1Go (pass1Line inC l).1 ls).2.2)) = countA ls := by
        simpa using ih (pass1Line inC l).1 [] (Or.inl rfl) hgood2 hz2
      simp only [pass1Go, List.flatten_cons]
      by_cases hst : stylesheetLine l = true
      · -- stylesheet branch: the line and its syntax.css copy are emitted
        have hchunk : (pass1Line inC l).2.2 = l ++ replaceAll SCSS YCSS l := by
          simp [pass1Line, hst]
        obtain ⟨t, hlt⟩ := stylesheet_starts hst
        have hanch : isAnchor l = false := by
          rw [hlt]
          exact isAnchor_false_of_second _ (by decide)
        rw [hchunk, hRHS, hanch]
        rcases hgood1 with ⟨m, hmeq, hmn⟩ | ⟨hls, hlnn, hlne⟩
        · obtain ⟨m', hm'eq, hm'n⟩ := replaceAllGo_endsNL SCSS YCSS (by decide)
            (by decide) ((m ++ ['\n']).length) m hmn (by simp)
          have hreq : replaceAll SCSS YCSS l = m' ++ ['\n'] := by
            unfold replaceAll
            rw [hmeq]
            exact hm'eq
          have hanchrep : isAnchor (replaceAll SCSS YCSS l) = false := by
            have hgen : ∀ f, isAnchor (replaceAllGo SCSS YCSS f l) = false := by
              intro f
              obtain ⟨t', ht'⟩ := replaceAllGo_keeps_head2 SCSS YCSS f '<' 'l' t rfl rfl
              rw [hlt, ht']
              exact isAnchor_false_of_second _ (by decide)
            unfold replaceAll
            exact hgen _
          have hcr : l ++ replaceAll SCSS YCSS l = (m ++ ['\n']) ++ (m' ++ ['\n']) := by
            rw [hreq, hmeq]
          rw [hcr]
          have hE : pend ++ (((m ++ ['\n']) ++ (m' ++ ['\n'])) ++
              List.flatten (pass1Go (pass1Line inC l).1 ls).2.2) =
              pend ++ ((m ++ ['\n']) ++ ((m' ++ ['\n']) ++
                List.flatten (pass1Go (pass1Line inC l).1 ls).2.2)) := by
            simp [List.append_assoc]
          rw [hE, countA_chunk_line hpend hmn, countA_line_append hm'n]
          have h1 : isAnchor (pend ++ (m ++ ['\n'])) = false := by
            apply isAnchor_pend hpend
            rw [← hmeq]
            exact hanch
          have h2 : isAnchor (m' ++ ['\n']) = false := by
            rw [← hreq]
            exact hanchrep
          rw [h1, h2, htail]
          simp
        · subst hls
          simp only [pass1Go, List.flatten_nil, List.append_nil]
          have hnrep : noNL (replaceAll SCSS YCSS l) = true := by
            unfold replaceAll
            exact replaceAllGo_noNL SCSS YCSS (by decide) _ _ hlnn
          have hnchunk : noNL (l ++ replaceAll SCSS YCSS l) = true := by
            simp only [noNL, List.all_append, Bool.and_eq_true]
            exact ⟨hlnn, hnrep⟩
          have hnechunk : l ++ replaceAll SCSS YCSS l ≠ [] := by
            rw [hlt]
            simp
          rw [countA_pend_single hpend hnchunk hnechunk]
          have hsh : pend ++ (l ++ replaceAll SCSS YCSS l) =
              pend ++ ('<' :: 'l' :: (t ++ replaceAll SCSS YCSS l)) := by
            rw [hlt]
            simp
          have h1 : isAnchor (pend ++ (l ++ replaceAll SCSS YCSS l)) = false := by
            rw [hsh]
            exact isAnchor_pend hpend _ (isAnchor_false_of_second _ (by decide))
          rw [h1]
          simp [countA]
      · by_cases hopen : l = contentOpen
        · -- content opener: emitted unchanged, flag set
          subst hopen
          have hchunk : (pass1Line inC contentOpen).2.2 = contentOpen := by
            rw [pass1Line_contentOpen]
          rw [hchunk, hRHS]
          have hanch : isAnchor contentOpen = false := by decide
          rw [hanch]
          have hE : pend ++ (contentOpen ++
              List.flatten (pass1Go (pass1Line inC contentOpen).1 ls).2.2) =
              pend ++ (((("<div id=\"content\">").data) ++ ['\n']) ++
                List.flatten (pass1Go (pass1Line inC contentOpen).1 ls).2.2) := rfl
          rw [hE, countA_chunk_line hpend (by decide)]
          have h1 : isAnchor (pend ++ ((("<div id=\"content\">").data) ++ ['\n'])) =
              false := isAnchor_pend hpend _ (by decide)
          rw [h1, htail]
        · cases inC with
          | false =>
              -- outside content: emitted unchanged
              have hchunk : (pass1Line false l).2.2 = l := by
                simp [pass1Line, hst, hopen]
              rw [hchunk, hRHS]
              rcases hgood1 with ⟨m, hmeq, hmn⟩ | ⟨hls, hlnn, hlne⟩
              · have hE : pend ++ (l ++
                    List.flatten (pass1Go (pass1Line false l).1 ls).2.2) =
                    pend ++ ((m ++ ['\n']) ++
                      List.flatten (pass1Go (pass1Line false l).1 ls).2.2) := by
                  rw [hmeq]
                rw [hE, countA_chunk_line hpend hmn]
                have hline : (if isAnchor (pend ++ (m ++ ['\n'])) then 1 else 0) =
                    (if isAnchor l then 1 else 0) := by
                  rcases hp with rfl | ⟨rfl, hph⟩
                  · rw [show ([] : Str) ++ (m ++ ['\n']) = l by rw [hmeq]; rfl]
                  · rw [isAnchor_divClose_append, hph l (by simp)]
                rw [hline, htail]
              · subst hls
                simp only [pass1Go, List.flatten_nil, List.append_nil]
                rw [countA_pend_single hpend hlnn hlne]
                rcases hp with rfl | ⟨rfl, hph⟩
                · simp [countA]
                · rw [isAnchor_divClose_append, hph l (by simp)]
                  simp [countA]
          | true =>
              by_cases hclose : l = closeDiv
              · -- in-content close: doubled, the extra piece dangles
                subst hclose
                have hchunk : (pass1Line true closeDiv).2.2 = closeDiv ++ divClose := by
                  decide
                rw [hchunk, hRHS]
                have hanch : isAnchor closeDiv = false := by decide
                rw [hanch]
                have hhz1 : ∀ l0 ∈ ls.take 1, isAnchor l0 = false := by
                  have h := hz
                  simp only [noMergeHazard, Bool.and_eq_true] at h
                  have hd : isDoubling true closeDiv = true := by decide
                  rw [if_pos hd] at h
                  cases ls with
                  | nil =>
                      intro l0 h0
                      simp at h0
                  | cons l2 ls2 =>
                      intro l0 h0
                      simp only [List.take_succ_cons, List.take_zero,
                        List.mem_singleton] at h0
                      subst h0
                      have := h.1
                      simp only [Bool.not_eq_true'] at this
                      exact this
                have hE : pend ++ ((closeDiv ++ divClose) ++
                    List.flatten (pass1Go (pass1Line true closeDiv).1 ls).2.2) =
                    pend ++ ((divClose ++ ['\n']) ++ (divClose ++
                      List.flatten (pass1Go (pass1Line true closeDiv).1 ls).2.2)) := by
                  rw [show closeDiv = divClose ++ ['\n'] from rfl]
                  simp [List.append_assoc]
                rw [hE, countA_chunk_line hpend (by decide)]
                have h1 : isAnchor (pend ++ (divClose ++ ['\n'])) = false :=
                  isAnchor_pend hpend _ (by decide)
                rw [h1]
                have htailD := ih (pass1Line true closeDiv).1 divClose
                  (Or.inr ⟨rfl, hhz1⟩) hgood2 hz2
                rw [htailD]
              · by_cases hraw : rawLine l = true
                · -- raw-link header: <hr/> replaced, wrapper div opened
                  have hchunk : (pass1Line true l).2.2 = replaceAll HRS HRH l := by
                    simp [pass1Line, hst, hopen, hclose, hraw]
                  obtain ⟨t, hlt⟩ := raw_starts hraw
                  have hanch : isAnchor l = false := by
                    rw [hlt]
                    exact isAnchor_false_of_second _ (by decide)
                  rw [hchunk, hRHS, hanch]
                  have hanchrep : isAnchor (replaceAll HRS HRH l) = false := by
                    have hgen : ∀ f, isAnchor (replaceAllGo HRS HRH f l) = false := by
                      intro f
                      obtain ⟨t', ht'⟩ :=
                        replaceAllGo_keeps_head2 HRS HRH f '<' 'p' t rfl rfl
                      rw [hlt, ht']
                      exact isAnchor_false_of_second _ (by decide)
                    unfold replaceAll
                    exact hgen _
                  rcases hgood1 with ⟨m, hmeq, hmn⟩ | ⟨hls, hlnn, hlne⟩
                  · obtain ⟨m', hm'eq, hm'n⟩ := replaceAllGo_endsNL HRS HRH (by decide)
                      (by decide) ((m ++ ['\n']).length) m hmn (by simp)
                    have hreq : replaceAll HRS HRH l = m' ++ ['\n'] := by
                      unfold replaceAll
                      rw [hmeq]
                      exact hm'eq
                    rw [hreq]
                    have hE : pend ++ ((m' ++ ['\n']) ++
                        List.flatten (pass1Go (pass1Line true l).1 ls).2.2) =
                        pend ++ ((m' ++ ['\n']) ++
                          List.flatten (pass1Go (pass1Line true l).1 ls).2.2) := rfl
                    rw [countA_chunk_line hpend hm'n]
                    have h1 : isAnchor (pend ++ (m' ++ ['\n'])) = false := by
                      apply isAnchor_pend hpend
                      rw [← hreq]
                      exact hanchrep
                    rw [h1, htail]
                  · subst hls
                    simp only [pass1Go, List.flatten_nil, List.append_nil]
                    have hnrep : noNL (replaceAll HRS HRH l) = true := by
                      unfold replaceAll
                      exact replaceAllGo_noNL HRS HRH (by decide) _ _ hlnn
                    have hnechunk : replaceAll HRS HRH l ≠ [] := by
                      have hgen : ∀ f, ∃ t', replaceAllGo HRS HRH f l =
                          '<' :: 'p' :: t' := by
                        intro f
                        obtain ⟨t', ht'⟩ :=
                          replaceAllGo_keeps_head2 HRS HRH f '<' 'p' t rfl rfl
                        exact ⟨t', by rw [hlt, ht']⟩
                      unfold replaceAll
                      obtain ⟨t', ht'⟩ := hgen l.length
                      rw [ht']
                      simp
                    rw [countA_pend_single hpend hnrep hnechunk]
                    have h1 : isAnchor (pend ++ replaceAll HRS HRH l) = false := by
                      apply isAnchor_pend hpend
                      exact hanchrep
                    rw [h1]
                    simp [countA]
                · -- any other in-content line: emitted unchanged
                  have hchunk : (pass1Line true l).2.2 = l := by
                    simp [pass1Line, hst, hopen, hclose, hraw]
                  rw [hchunk, hRHS]
                  rcases hgood1 with ⟨m, hmeq, hmn⟩ | ⟨hls, hlnn, hlne⟩
                  · have hE : pend ++ (l ++
                        List.flatten (pass1Go (pass1Line true l).1 ls).2.2) =
                        pend ++ ((m ++ ['\n']) ++
                          List.flatten (pass1Go (pass1Line true l).1 ls).2.2) := by
                      rw [hmeq]
                    rw [hE, countA_chunk_line hpend hmn]
                    have hline : (if isAnchor (pend ++ (m ++ ['\n'])) then 1 else 0) =
                        (if isAnchor l then 1 else 0) := by
                      rcases hp with rfl | ⟨rfl, hph⟩
                      · rw [show ([] : Str) ++ (m ++ ['\n']) = l by rw [hmeq]; rfl]
                      · rw [isAnchor_divClose_append, hph l (by simp)]
                    rw [hline, htail]
                  · subst hls
                    simp only [pass1Go, List.flatten_nil, List.append_nil]
                    rw [countA_pend_single hpend hlnn hlne]
                    rcases hp with rfl | ⟨rfl, hph⟩
                    · simp [countA]
                    · rw [isAnchor_divClose_append, hph l (by simp)]
                      simp [countA]

/-- C6 amended: the number of anchor-pattern lines pass 1 matches equals the
number of anchor-prefix lines pass 2 finds in the rewritten file (each of
which consumes exactly one highlighted line, see `pass2Spec`), provided no
anchor line directly follows an in-content `</div>` line — the doubled close
is printed without a trailing newline, merges with the following printed
line, and would otherwise rob it of its match.  Pass 1 writes anchor lines
back unmodified and none of its injected lines match the anchor pattern. -/
theorem c6_amended (content : Str)
    (h : noMergeHazard false (pyLines content) = true) :
    countA (pyLines (pass1 content).2) = countA (pyLines content) := by
  have hmain := c6_go (pyLines content) false [] (Or.inl rfl) (pyLines_good content) h
  simpa [pass1] using hmain

theorem c6_amended_witness :
    noMergeHazard false (pyLines fixture) = true ∧
      countA (pyLines (pass1 fixture).2) = countA (pyLines fixture) :=
  ⟨by decide, c6_amended fixture (by decide)⟩
